import Mathlib

/-!
Shallow embedding of the uncertainty-analytics and request-coordination
layer of the cerebras-hud extension: the probability transform and metric
engine (`out/utils/cache.js` math utilities), the TTL+LRU `PredictionCache`
(`out/utils/cache.js`), the HUD API client (`src/api/hudClient.ts`), and
the saliency display filter (`src/features/saliencyLens`).

JavaScript `Map` objects are modelled as insertion-ordered association
lists (`JsMap`): `Map.prototype.set` on a present key updates the value in
place (keeping the key's position), otherwise it appends at the end;
`get` reads the first matching key; `delete` removes it.  JavaScript
floating-point numbers are modelled as real numbers; wall-clock
milliseconds (`Date.now()`) as naturals.
-/

set_option maxHeartbeats 1000000

/-- Insertion-ordered key/value list modelling a JavaScript `Map`. -/
abbrev JsMap (α : Type) : Type := List (String × α)

/-- `Map.prototype.get`: value at the first matching key, if any. -/
def jsGet {α : Type} : JsMap α → String → Option α
  | [], _ => none
  | (k', v) :: rest, k => if k' = k then some v else jsGet rest k

/-- `Map.prototype.set`: update a present key in place, else append. -/
def jsSet {α : Type} : JsMap α → String → α → JsMap α
  | [], k, v => [(k, v)]
  | (k', v') :: rest, k, v =>
    if k' = k then (k, v) :: rest else (k', v') :: jsSet rest k v

/-- `Map.prototype.delete`: remove the first matching key, if present. -/
def jsDelete {α : Type} : JsMap α → String → JsMap α
  | [], _ => []
  | (k', v') :: rest, k => if k' = k then rest else (k', v') :: jsDelete rest k

/-- JavaScript `m.get(k) || d` on numbers: `undefined` and `0` both fall
back to the default `d`. -/
noncomputable def jsGetNumOr (m : JsMap ℝ) (k : String) (d : ℝ) : ℝ :=
  match jsGet m k with
  | none => d
  | some v => if v = 0 then d else v

/-- One candidate continuation and its log-likelihood
(interface `TokenProb` in `src/types/logprobs.ts`). -/
structure TokenLogprob where
  token : String
  logprob : ℝ

/-- `Math.max(...logprobs.map(lp => lp.logprob))` over a non-empty list
(`0` for the empty list, which `logprobsToProbs` never reaches). -/
noncomputable def maxLogprob : List TokenLogprob → ℝ
  | [] => 0
  | lp :: rest => (rest.map TokenLogprob.logprob).foldl max lp.logprob

/-- The intermediate `exps` array of `logprobsToProbs`:
each token paired with `exp(logprob - maxLogprob)`. -/
noncomputable def expWeights (logprobs : List TokenLogprob) : List (String × ℝ) :=
  logprobs.map fun lp => (lp.token, Real.exp (lp.logprob - maxLogprob logprobs))

/-- The `sumExp` accumulator of `logprobsToProbs`. -/
noncomputable def sumExp (logprobs : List TokenLogprob) : ℝ :=
  ((expWeights logprobs).map Prod.snd).sum

/-- `logprobsToProbs` from `out/utils/cache.js`: convert logprobs to
normalized probabilities, subtracting the max before exponentiating and
inserting each normalized weight into a fresh `Map` in input order. -/
noncomputable def logprobsToProbs (logprobs : List TokenLogprob) : JsMap ℝ :=
  match logprobs with
  | [] => []
  | _ :: _ =>
    (expWeights logprobs).foldl
      (fun m e => jsSet m e.1 (e.2 / sumExp logprobs)) []

/-- `calculateEntropy` from `out/utils/cache.js`:
`H = -sum(p * log2 p)` over the map's values, skipping `p ≤ 0`. -/
noncomputable def calculateEntropy (probs : JsMap ℝ) : ℝ :=
  ((probs.map Prod.snd).map
    (fun p => if 0 < p then -(p * Real.logb 2 p) else 0)).sum

/-- The `[...topLogprobs].sort((a, b) => b.logprob - a.logprob)` step of
`calculateMargin`: stable sort, descending by logprob. -/
noncomputable def sortByLogprobDesc (l : List TokenLogprob) : List TokenLogprob :=
  l.mergeSort fun a b => decide (b.logprob ≤ a.logprob)

/-- `calculateMargin` from `out/utils/cache.js`: `1.0` for fewer than two
candidates, else `p1 - p2` over the probability transform of the top two. -/
noncomputable def calculateMargin (topLogprobs : List TokenLogprob) : ℝ :=
  if topLogprobs.length < 2 then 1.0
  else
    match sortByLogprobDesc topLogprobs with
    | a :: b :: _ =>
      let probs := logprobsToProbs [a, b]
      jsGetNumOr probs a.token 0 - jsGetNumOr probs b.token 0
    | _ => 1.0

/-- `calculateKL` from `out/utils/cache.js`:
`KL(P ‖ Q) = sum(P(t) * log(P(t) / Q(t)))` over entries of `P`, with the
`q.get(token) || 1e-10` epsilon fallback and the `pVal > 0` guard. -/
noncomputable def calculateKL (p q : JsMap ℝ) : ℝ :=
  (p.map fun e =>
    if 0 < e.2 then e.2 * Real.log (e.2 / jsGetNumOr q e.1 1e-10) else 0).sum

/-- A cached value together with its insertion time
(the `{ value, timestamp }` records of `PredictionCache`). -/
structure CacheEntry (α : Type) where
  value : α
  timestamp : Nat
deriving DecidableEq

/-- `PredictionCache` from `out/utils/cache.js`: an LRU cache over a
JavaScript `Map`, with a size bound and a TTL in milliseconds. -/
structure PredictionCache (α : Type) where
  cache : JsMap (CacheEntry α)
  maxSize : Nat
  ttlMs : Nat
deriving DecidableEq

/-- The `PredictionCache` constructor: empty map, given bounds. -/
def PredictionCache.make (α : Type) (maxSize ttlMs : Nat) : PredictionCache α :=
  ⟨[], maxSize, ttlMs⟩

/-- `PredictionCache.get`: miss on absence; if `now - timestamp > ttlMs`,
delete the entry and miss; else move the entry to the end (most recently
used) and return its value.  Returns the result and the updated cache. -/
def PredictionCache.get {α : Type} (c : PredictionCache α) (key : String)
    (now : Nat) : Option α × PredictionCache α :=
  match jsGet c.cache key with
  | none => (none, c)
  | some entry =>
    if c.ttlMs < now - entry.timestamp then
      (none, { c with cache := jsDelete c.cache key })
    else
      (some entry.value,
       { c with cache := jsSet (jsDelete c.cache key) key entry })

/-- `PredictionCache.set`: when at capacity and the key is absent, delete
the first key of the map (if any), then `Map.set` the new entry. -/
def PredictionCache.set {α : Type} (c : PredictionCache α) (key : String)
    (value : α) (now : Nat) : PredictionCache α :=
  let evicted :=
    if c.maxSize ≤ c.cache.length && !(jsGet c.cache key).isSome then
      match c.cache with
      | [] => c.cache
      | (firstKey, _) :: _ => jsDelete c.cache firstKey
    else c.cache
  { c with cache := jsSet evicted key ⟨value, now⟩ }

/-- `PredictionCache.clear`: drop all entries. -/
def PredictionCache.clear {α : Type} (c : PredictionCache α) : PredictionCache α :=
  { c with cache := [] }

/-- `PredictionCache.size`: number of entries. -/
def PredictionCache.size {α : Type} (c : PredictionCache α) : Nat :=
  c.cache.length

/-- One public cache operation, for stating invariants over arbitrary
operation sequences. -/
inductive CacheOp (α : Type) where
  | get (key : String) (now : Nat)
  | set (key : String) (value : α) (now : Nat)
  | clear

/-- Apply one operation to the cache, keeping only the resulting state. -/
def applyOp {α : Type} (c : PredictionCache α) : CacheOp α → PredictionCache α
  | .get key now => (c.get key now).2
  | .set key value now => c.set key value now
  | .clear => c.clear

/-- Run a sequence of operations from a starting state. -/
def runOps {α : Type} (c : PredictionCache α) (ops : List (CacheOp α)) :
    PredictionCache α :=
  ops.foldl applyOp c

/-- `ToInt32` coercion applied by JavaScript bitwise operators. -/
def toInt32 (n : Int) : Int := (n + 2 ^ 31).emod (2 ^ 32) - 2 ^ 31

/-- One step of `hashString`:
`hash = ((hash << 5) - hash) + charCode`, truncated via `hash & hash`. -/
def hashStep (h : Int) (c : Char) : Int := toInt32 (toInt32 (h * 32) - h + c.toNat)

/-- `Number.prototype.toString(16)` for 32-bit integer values. -/
def intToHex (n : Int) : String :=
  if n < 0 then "-" ++ String.mk (Nat.toDigits 16 n.natAbs)
  else String.mk (Nat.toDigits 16 n.toNat)

/-- `hashString` from `out/utils/cache.js`: non-cryptographic 32-bit
string hash, rendered in hex. -/
def hashString (str : String) : String := intToHex (str.data.foldl hashStep 0)

/-- `makeCacheKey` from `out/utils/cache.js`: feature tag + prefix hash. -/
def makeCacheKey (feature pfx : String) : String :=
  feature ++ ":" ++ hashString pfx

/-- `buildPrefix` from `src/api/hudClient.ts`: the document text up to the
cursor, `cursorLine` being 1-indexed and `cursorChar` 0-indexed. -/
def buildPrefix (lines : List String) (cursorLine : Int) (cursorChar : Nat) :
    String :=
  let targetLine := cursorLine - 1
  if targetLine < 0 then ""
  else if lines.length ≤ targetLine.toNat then String.intercalate "\n" lines
  else
    let beforeCursor := (lines.getD targetLine.toNat "").take cursorChar
    String.intercalate "\n" (lines.take targetLine.toNat ++ [beforeCursor])

/-- The synchronous first half of each fetch function in
`src/api/hudClient.ts`, up to the `await fetch(...)`: the cache lookup.
A backend call is issued exactly when this returns a miss. -/
def fetchPhase1 {α : Type} (c : PredictionCache α) (key : String) (now : Nat) :
    Option α × PredictionCache α :=
  c.get key now

/-- The second half of each fetch function, once the backend responded:
`none` models a non-2xx status or transport error (the `catch` branch,
which returns `null` and caches nothing); `some data` is cached and
returned. -/
def fetchPhase2 {α : Type} (c : PredictionCache α) (key : String) (now : Nat)
    (backend : Option α) : Option α × PredictionCache α :=
  match backend with
  | none => (none, c)
  | some data => (some data, c.set key data now)

/-- A whole fetch function run to completion with no interleaving: cache
lookup, then (on a miss) the backend call with outcome `backend`. -/
def fetchFeature {α : Type} (c : PredictionCache α) (key : String) (now : Nat)
    (backend : Option α) : Option α × PredictionCache α :=
  match fetchPhase1 c key now with
  | (some v, c1) => (some v, c1)
  | (none, c1) => fetchPhase2 c1 key now backend

/-- `fetchEntropy` from `src/api/hudClient.ts`, with the module-level
`entropyCache` passed explicitly and the backend outcome as a parameter. -/
def fetchEntropy {α : Type} (c : PredictionCache α) (code uri : String)
    (cursorLine : Int) (cursorChar : Nat) (now : Nat) (backend : Option α) :
    Option α × PredictionCache α :=
  let lines := code.splitOn "\n"
  let pfx := buildPrefix lines cursorLine cursorChar
  let _ := uri
  fetchFeature c (makeCacheKey "entropy" pfx) now backend

/-- `fetchGhost` from `src/api/hudClient.ts`. -/
def fetchGhost {α : Type} (c : PredictionCache α) (code uri : String)
    (cursorLine : Int) (cursorChar : Nat) (now : Nat) (backend : Option α) :
    Option α × PredictionCache α :=
  let lines := code.splitOn "\n"
  let pfx := buildPrefix lines cursorLine cursorChar
  let _ := uri
  fetchFeature c (makeCacheKey "ghost" pfx) now backend

/-- `fetchAutopanic` from `src/api/hudClient.ts`. -/
def fetchAutopanic {α : Type} (c : PredictionCache α) (code uri : String)
    (cursorLine : Int) (cursorChar : Nat) (now : Nat) (backend : Option α) :
    Option α × PredictionCache α :=
  let lines := code.splitOn "\n"
  let pfx := buildPrefix lines cursorLine cursorChar
  let _ := uri
  fetchFeature c (makeCacheKey "autopanic" pfx) now backend

/-- `fetchSaliency` from `src/api/hudClient.ts`: keyed by
`uri:cursorLine:cursorChar` rather than by text prefix. -/
def fetchSaliency {α : Type} (c : PredictionCache α) (code uri : String)
    (cursorLine : Int) (cursorChar : Nat) (now : Nat) (backend : Option α) :
    Option α × PredictionCache α :=
  let _ := code
  fetchFeature c
    (makeCacheKey "saliency"
      (uri ++ ":" ++ toString cursorLine ++ ":" ++ toString cursorChar))
    now backend

/-- Two lookups for the same key racing: both cache checks run before
either backend response arrives (each `await fetch` suspends after the
lookup).  Counts how many backend calls are issued. -/
def backendCallsInterleaved {α : Type} (c : PredictionCache α) (key : String)
    (now₁ now₂ : Nat) : Nat :=
  let r₁ := fetchPhase1 c key now₁
  let r₂ := fetchPhase1 r₁.2 key now₂
  (if r₁.1.isSome then 0 else 1) + (if r₂.1.isSome then 0 else 1)

/-- One backend saliency token (`SaliencyToken` in `src/types/hud.ts`),
with the wire float `klDivergence` modelled as a rational. -/
structure SaliencyToken where
  line : Int
  character : Int
  klDivergence : ℚ
  tokenText : String
deriving DecidableEq

/-- `KL_THRESHOLD` from the saliency lens feature: minimum KL divergence
for a token to be considered salient. -/
def KL_THRESHOLD : ℚ := 0.05

/-- `MAX_DISPLAY_TOKENS` from the saliency lens feature. -/
def MAX_DISPLAY_TOKENS : Nat := 5

/-- The filter/sort/slice pipeline of `showSaliencyHighlights`:
keep tokens with `klDivergence >= KL_THRESHOLD`, sort by KL descending
(stable), and keep the first `MAX_DISPLAY_TOKENS`. -/
def salientTokens (tokens : List SaliencyToken) : List SaliencyToken :=
  ((tokens.filter fun t => KL_THRESHOLD ≤ t.klDivergence).mergeSort
    fun a b => decide (b.klDivergence ≤ a.klDivergence)).take MAX_DISPLAY_TOKENS

/-! ### Lemmas about the `JsMap` model -/

theorem jsGet_jsSet {α : Type} (m : JsMap α) (k k' : String) (v : α) :
    jsGet (jsSet m k v) k' = if k = k' then some v else jsGet m k' := by
  induction m with
  | nil => simp [jsSet, jsGet]
  | cons hd tl ih =>
    obtain ⟨k₀, v₀⟩ := hd
    by_cases h₀ : k₀ = k
    · subst h₀
      by_cases h₁ : k₀ = k'
      · subst h₁; simp [jsSet, jsGet]
      · simp [jsSet, jsGet, h₁]
    · by_cases h₁ : k₀ = k'
      · subst h₁
        have hne : ¬ k = k₀ := fun h => h₀ h.symm
        simp [jsSet, jsGet, h₀, hne]
      · simp [jsSet, jsGet, h₀, h₁, ih]

theorem length_jsSet {α : Type} (m : JsMap α) (k : String) (v : α) :
    (jsSet m k v).length =
      if (jsGet m k).isSome then m.length else m.length + 1 := by
  induction m with
  | nil => simp [jsSet, jsGet]
  | cons hd tl ih =>
    obtain ⟨k₀, v₀⟩ := hd
    by_cases h₀ : k₀ = k
    · simp [jsSet, jsGet, h₀]
    · simp only [jsSet, jsGet, if_neg h₀, List.length_cons, ih]
      by_cases h₁ : (jsGet tl k).isSome <;> simp [h₁]

theorem jsDelete_sublist {α : Type} (m : JsMap α) (k : String) :
    (jsDelete m k).Sublist m := by
  induction m with
  | nil => simp [jsDelete]
  | cons hd tl ih =>
    obtain ⟨k₀, v₀⟩ := hd
    by_cases h₀ : k₀ = k
    · simp only [jsDelete, if_pos h₀]
      exact List.sublist_cons_self _ _
    · simp only [jsDelete, if_neg h₀]
      exact List.Sublist.cons₂ _ ih

theorem length_jsDelete_of_isSome {α : Type} (m : JsMap α) (k : String)
    (h : (jsGet m k).isSome) : (jsDelete m k).length + 1 = m.length := by
  induction m with
  | nil => simp [jsGet] at h
  | cons hd tl ih =>
    obtain ⟨k₀, v₀⟩ := hd
    by_cases h₀ : k₀ = k
    · simp [jsDelete, h₀]
    · simp only [jsGet, if_neg h₀] at h
      simp [jsDelete, h₀, ih h]

theorem jsGet_eq_none_iff {α : Type} (m : JsMap α) (k : String) :
    jsGet m k = none ↔ k ∉ m.map Prod.fst := by
  induction m with
  | nil => simp [jsGet]
  | cons hd tl ih =>
    obtain ⟨k₀, v₀⟩ := hd
    by_cases h₀ : k₀ = k
    · simp [jsGet, h₀]
    · have hne : ¬ k = k₀ := fun h => h₀ h.symm
      simp only [jsGet, if_neg h₀, List.map_cons, List.mem_cons, ih]
      constructor
      · intro h hc
        rcases hc with hc | hc
        · exact hne hc
        · exact h hc
      · intro h hc
        exact h (Or.inr hc)

theorem jsGet_isSome_iff {α : Type} (m : JsMap α) (k : String) :
    (jsGet m k).isSome ↔ k ∈ m.map Prod.fst := by
  rw [Option.isSome_iff_ne_none, ne_eq, jsGet_eq_none_iff, not_not]

theorem map_fst_jsSet {α : Type} (m : JsMap α) (k : String) (v : α) :
    (jsSet m k v).map Prod.fst =
      if k ∈ m.map Prod.fst then m.map Prod.fst
      else m.map Prod.fst ++ [k] := by
  induction m with
  | nil => simp [jsSet]
  | cons hd tl ih =>
    obtain ⟨k₀, v₀⟩ := hd
    by_cases h₀ : k₀ = k
    · subst h₀; simp [jsSet]
    · have hne : ¬ k = k₀ := fun h => h₀ h.symm
      simp only [jsSet, if_neg h₀, List.map_cons, ih, List.mem_cons]
      by_cases h₁ : k ∈ tl.map Prod.fst <;> simp [h₁, hne]

theorem jsGet_jsDelete_self {α : Type} (m : JsMap α) (k : String)
    (h : (m.map Prod.fst).Nodup) : jsGet (jsDelete m k) k = none := by
  induction m with
  | nil => simp [jsDelete, jsGet]
  | cons hd tl ih =>
    obtain ⟨k₀, v₀⟩ := hd
    simp only [List.map_cons, List.nodup_cons] at h
    by_cases h₀ : k₀ = k
    · subst h₀
      simp only [jsDelete, if_pos rfl]
      exact (jsGet_eq_none_iff tl k₀).2 h.1
    · simp [jsDelete, jsGet, h₀, ih h.2]

theorem nodupKeys_jsSet {α : Type} (m : JsMap α) (k : String) (v : α)
    (h : (m.map Prod.fst).Nodup) : ((jsSet m k v).map Prod.fst).Nodup := by
  rw [map_fst_jsSet]
  by_cases h₁ : k ∈ m.map Prod.fst
  · simpa [h₁]
  · simpa [h₁, List.nodup_append] using h

theorem nodupKeys_jsDelete {α : Type} (m : JsMap α) (k : String)
    (h : (m.map Prod.fst).Nodup) : ((jsDelete m k).map Prod.fst).Nodup :=
  h.sublist (List.Sublist.map Prod.fst (jsDelete_sublist m k))

theorem jsGet_of_mem_nodup {α : Type} (m : JsMap α) (k : String) (v : α)
    (hnd : (m.map Prod.fst).Nodup) (hmem : (k, v) ∈ m) :
    jsGet m k = some v := by
  induction m with
  | nil => simp at hmem
  | cons hd tl ih =>
    obtain ⟨k₀, v₀⟩ := hd
    simp only [List.map_cons, List.nodup_cons] at hnd
    rcases List.mem_cons.1 hmem with h | h
    · obtain ⟨h1, h2⟩ := Prod.mk.injEq .. ▸ h
      simp [jsGet, h1.symm, h2]
    · have hk : ¬ k₀ = k := by
        intro he; subst he
        exact hnd.1 (List.mem_map_of_mem Prod.fst h)
      simp [jsGet, hk, ih hnd.2 h]

theorem jsGet_foldl_jsSet {α β : Type} (f : β → String) (g : β → α) :
    ∀ (xs : List β) (acc : JsMap α) (t : String),
      jsGet (xs.foldl (fun m e => jsSet m (f e) (g e)) acc) t =
        match xs.reverse.find? (fun e => f e == t) with
        | some e => some (g e)
        | none => jsGet acc t := by
  intro xs
  induction xs with
  | nil => intro acc t; simp
  | cons x xs ih =>
    intro acc t
    simp only [List.foldl_cons, List.reverse_cons, ih, List.find?_append]
    cases hf : xs.reverse.find? (fun e => f e == t) with
    | some e => simp
    | none =>
      simp only [Option.none_or]
      by_cases ht : f x = t
      · have hb : (f x == t) = true := by simpa using ht
        simp [List.find?, hb, jsGet_jsSet, ht]
      · have hb : (f x == t) = false := by simpa using ht
        simp [List.find?, hb, jsGet_jsSet, ht]

theorem map_fst_foldl_jsSet {α β : Type} (f : β → String) (g : β → α) :
    ∀ (xs : List β) (acc : JsMap α),
      ((acc.map Prod.fst).Nodup) →
      (((xs.foldl (fun m e => jsSet m (f e) (g e)) acc).map Prod.fst).Nodup
       ∧ ∀ t, t ∈ (xs.foldl (fun m e => jsSet m (f e) (g e)) acc).map Prod.fst ↔
           (t ∈ acc.map Prod.fst ∨ t ∈ xs.map f)) := by
  intro xs
  induction xs with
  | nil => intro acc h; simpa using h
  | cons x xs ih =>
    intro acc h
    have hnd : (((jsSet acc (f x) (g x)).map Prod.fst)).Nodup :=
      nodupKeys_jsSet acc (f x) (g x) h
    obtain ⟨h1, h2⟩ := ih (jsSet acc (f x) (g x)) hnd
    refine ⟨h1, fun t => ?_⟩
    rw [List.foldl_cons, h2 t, map_fst_jsSet]
    by_cases hx : f x ∈ acc.map Prod.fst
    · simp only [if_pos hx, List.map_cons, List.mem_cons]
      constructor
      · rintro (hc | hc)
        · exact Or.inl hc
        · exact Or.inr (Or.inr hc)
      · rintro (hc | hc | hc)
        · exact Or.inl hc
        · refine Or.inl ?_
          rw [hc]
          exact hx
        · exact Or.inr hc
    · simp only [if_neg hx, List.map_cons, List.mem_cons, List.mem_append,
        List.mem_singleton]
      tauto

theorem foldl_jsSet_of_nodup {α β : Type} (f : β → String) (g : β → α)
    (xs : List β) (hnd : (xs.map f).Nodup) :
    xs.foldl (fun m e => jsSet m (f e) (g e)) [] =
      xs.map (fun e => (f e, g e)) := by
  suffices h : ∀ (acc : JsMap α), (∀ e ∈ xs, f e ∉ acc.map Prod.fst) →
      xs.foldl (fun m e => jsSet m (f e) (g e)) acc =
        acc ++ xs.map (fun e => (f e, g e)) by
    simpa using h [] (by simp)
  induction xs with
  | nil => intro acc _; simp
  | cons x xs ih =>
    intro acc hfresh
    simp only [List.map_cons, List.nodup_cons] at hnd
    have hset : jsSet acc (f x) (g x) = acc ++ [(f x, g x)] := by
      have hx : f x ∉ acc.map Prod.fst := hfresh x (List.mem_cons_self x xs)
      clear hfresh ih hnd
      induction acc with
      | nil => simp [jsSet]
      | cons hd tl ihacc =>
        obtain ⟨k₀, v₀⟩ := hd
        simp only [List.map_cons, List.mem_cons] at hx
        push_neg at hx
        have h₀ : ¬ k₀ = f x := fun h => hx.1 h.symm
        simp [jsSet, h₀, ihacc hx.2]
    rw [List.foldl_cons, hset]
    have hfresh2 : ∀ e ∈ xs, f e ∉ (acc ++ [(f x, g x)]).map Prod.fst := by
      intro e he
      simp only [List.map_append, List.mem_append, List.map_cons, List.map_nil,
        List.mem_singleton]
      rintro (hc | hc)
      · exact hfresh e (List.mem_cons_of_mem x he) hc
      · have hfe : f e = f x := by simpa using hc
        exact hnd.1 (hfe ▸ List.mem_map_of_mem f he)
    rw [ih hnd.2 (acc ++ [(f x, g x)]) hfresh2]
    simp

/-! ### Lemmas about `PredictionCache` -/

theorem PredictionCache.get_maxSize {α : Type} (c : PredictionCache α)
    (key : String) (now : Nat) : ((c.get key now).2).maxSize = c.maxSize := by
  unfold PredictionCache.get
  cases jsGet c.cache key with
  | none => rfl
  | some entry => by_cases h : c.ttlMs < now - entry.timestamp <;> simp [h]

theorem PredictionCache.get_ttlMs {α : Type} (c : PredictionCache α)
    (key : String) (now : Nat) : ((c.get key now).2).ttlMs = c.ttlMs := by
  unfold PredictionCache.get
  cases jsGet c.cache key with
  | none => rfl
  | some entry => by_cases h : c.ttlMs < now - entry.timestamp <;> simp [h]

theorem PredictionCache.length_get_le {α : Type} (c : PredictionCache α)
    (key : String) (now : Nat) :
    ((c.get key now).2).cache.length ≤ c.cache.length := by
  unfold PredictionCache.get
  cases hg : jsGet c.cache key with
  | none => simp
  | some entry =>
    by_cases h : c.ttlMs < now - entry.timestamp
    · simpa [h] using (jsDelete_sublist c.cache key).length_le
    · dsimp only
      rw [if_neg h]
      show (jsSet (jsDelete c.cache key) key entry).length ≤ c.cache.length
      have hdel : (jsDelete c.cache key).length + 1 = c.cache.length :=
        length_jsDelete_of_isSome c.cache key (by simp [hg])
      rw [length_jsSet]
      by_cases hs : (jsGet (jsDelete c.cache key) key).isSome <;> simp [hs] <;> omega

theorem PredictionCache.length_set_le {α : Type} (c : PredictionCache α)
    (key : String) (value : α) (now : Nat) (hmax : 1 ≤ c.maxSize)
    (h : c.cache.length ≤ c.maxSize) :
    (c.set key value now).cache.length ≤ c.maxSize := by
  simp only [PredictionCache.set]
  by_cases hs : (jsGet c.cache key).isSome
  · have hb : (decide (c.maxSize ≤ c.cache.length) && !(jsGet c.cache key).isSome)
        = false := by simp [hs]
    rw [hb]
    simp only [Bool.false_eq_true, if_neg (fun hf => hf)]
    rw [length_jsSet, if_pos hs]
    exact h
  · by_cases hfull : c.maxSize ≤ c.cache.length
    · have hb : (decide (c.maxSize ≤ c.cache.length) && !(jsGet c.cache key).isSome)
          = true := by simp [hs, hfull]
      rw [hb, if_pos rfl]
      match hc : c.cache with
      | [] =>
        rw [hc] at hfull
        simp at hfull
        omega
      | (firstKey, e₀) :: rest =>
        have hdel : jsDelete ((firstKey, e₀) :: rest) firstKey = rest := by
          simp [jsDelete]
        dsimp only
        rw [hdel, length_jsSet]
        have hnone : jsGet rest key = none := by
          rw [hc] at hs
          simp only [jsGet] at hs
          by_cases hfk : firstKey = key
          · rw [if_pos hfk] at hs
            simp at hs
          · rw [if_neg hfk] at hs
            simpa using hs
        rw [hc] at h
        simp only [List.length_cons] at h
        simp only [hnone, Option.isSome_none, Bool.false_eq_true, if_neg (fun hf => hf)]
        omega
    · have hb : (decide (c.maxSize ≤ c.cache.length) && !(jsGet c.cache key).isSome)
          = false := by simp [hfull]
      rw [hb]
      simp only [Bool.false_eq_true, if_neg (fun hf => hf)]
      rw [length_jsSet]
      simp only [hs, Bool.false_eq_true, if_neg (fun hf => hf)]
      omega

theorem PredictionCache.size_runOps_le {α : Type} (maxSize ttlMs : Nat)
    (hmax : 1 ≤ maxSize) (ops : List (CacheOp α)) :
    (runOps (PredictionCache.make α maxSize ttlMs) ops).size ≤ maxSize := by
  suffices h : ∀ (c : PredictionCache α), c.maxSize = maxSize →
      c.cache.length ≤ maxSize →
      (runOps c ops).cache.length ≤ maxSize ∧ (runOps c ops).maxSize = maxSize by
    exact ((h (PredictionCache.make α maxSize ttlMs) rfl (by simp [PredictionCache.make])).1)
  induction ops with
  | nil => intro c h1 h2; exact ⟨h2, h1⟩
  | cons op ops ih =>
    intro c h1 h2
    refine ih (applyOp c op) ?_ ?_
    · cases op with
      | get key now => simpa [applyOp] using (PredictionCache.get_maxSize c key now).trans h1
      | set key value now => simpa [applyOp, PredictionCache.set] using h1
      | clear => simpa [applyOp, PredictionCache.clear] using h1
    · cases op with
      | get key now =>
        exact le_trans (by simpa [applyOp] using PredictionCache.length_get_le c key now) h2
      | set key value now =>
        have := PredictionCache.length_set_le c key value now (h1 ▸ hmax) (h1 ▸ h2)
        simpa [applyOp, h1] using this
      | clear => simp [applyOp, PredictionCache.clear]

theorem PredictionCache.nodupKeys_get {α : Type} (c : PredictionCache α)
    (key : String) (now : Nat) (h : (c.cache.map Prod.fst).Nodup) :
    (((c.get key now).2).cache.map Prod.fst).Nodup := by
  unfold PredictionCache.get
  cases hg : jsGet c.cache key with
  | none => simpa using h
  | some entry =>
    by_cases ht : c.ttlMs < now - entry.timestamp
    · dsimp only
      rw [if_pos ht]
      exact nodupKeys_jsDelete c.cache key h
    · dsimp only
      rw [if_neg ht]
      show (((jsSet (jsDelete c.cache key) key entry)).map Prod.fst).Nodup
      exact nodupKeys_jsSet _ key entry (nodupKeys_jsDelete c.cache key h)

theorem PredictionCache.nodupKeys_set {α : Type} (c : PredictionCache α)
    (key : String) (value : α) (now : Nat) (h : (c.cache.map Prod.fst).Nodup) :
    ((c.set key value now).cache.map Prod.fst).Nodup := by
  simp only [PredictionCache.set]
  cases hb : (decide (c.maxSize ≤ c.cache.length) && !(jsGet c.cache key).isSome) with
  | false =>
    simp only [Bool.false_eq_true, if_neg (fun hf => hf)]
    exact nodupKeys_jsSet _ key _ h
  | true =>
    rw [if_pos rfl]
    match hc : c.cache with
    | [] => simp [jsSet]
    | (firstKey, e₀) :: rest =>
      dsimp only
      rw [hc] at h
      exact nodupKeys_jsSet _ key _ (nodupKeys_jsDelete _ firstKey h)

theorem PredictionCache.nodupKeys_runOps {α : Type} (maxSize ttlMs : Nat)
    (ops : List (CacheOp α)) :
    (((runOps (PredictionCache.make α maxSize ttlMs) ops).cache.map Prod.fst)).Nodup := by
  suffices h : ∀ (c : PredictionCache α), (c.cache.map Prod.fst).Nodup →
      ((runOps c ops).cache.map Prod.fst).Nodup by
    exact h _ (by simp [PredictionCache.make])
  induction ops with
  | nil => intro c hc; exact hc
  | cons op ops ih =>
    intro c hc
    refine ih (applyOp c op) ?_
    cases op with
    | get key now => exact PredictionCache.nodupKeys_get c key now hc
    | set key value now => exact PredictionCache.nodupKeys_set c key value now hc
    | clear => simp [applyOp, PredictionCache.clear]

theorem PredictionCache.get_some_age {α : Type} (c : PredictionCache α)
    (key : String) (now : Nat) (v : α) (h : (c.get key now).1 = some v) :
    ∃ e : CacheEntry α, jsGet c.cache key = some e ∧ e.value = v ∧
      now - e.timestamp ≤ c.ttlMs := by
  unfold PredictionCache.get at h
  cases hg : jsGet c.cache key with
  | none => rw [hg] at h; simp at h
  | some entry =>
    rw [hg] at h
    dsimp only at h
    by_cases ht : c.ttlMs < now - entry.timestamp
    · rw [if_pos ht] at h
      simp at h
    · rw [if_neg ht] at h
      simp only at h
      exact ⟨entry, rfl, by simpa using h, by omega⟩

theorem PredictionCache.get_expired {α : Type} (c : PredictionCache α)
    (key : String) (now : Nat) (e : CacheEntry α)
    (hnd : (c.cache.map Prod.fst).Nodup)
    (hg : jsGet c.cache key = some e) (ht : c.ttlMs < now - e.timestamp) :
    (c.get key now).1 = none ∧ jsGet ((c.get key now).2).cache key = none := by
  unfold PredictionCache.get
  rw [hg]
  dsimp only
  rw [if_pos ht]
  exact ⟨rfl, jsGet_jsDelete_self c.cache key hnd⟩

theorem PredictionCache.ttlMs_runOps {α : Type} (maxSize ttlMs : Nat)
    (ops : List (CacheOp α)) :
    (runOps (PredictionCache.make α maxSize ttlMs) ops).ttlMs = ttlMs := by
  suffices h : ∀ (c : PredictionCache α), (runOps c ops).ttlMs = c.ttlMs by
    exact h _
  induction ops with
  | nil => intro c; rfl
  | cons op ops ih =>
    intro c
    rw [runOps, List.foldl_cons]
    have := ih (applyOp c op)
    rw [runOps] at this
    rw [this]
    cases op with
    | get key now => exact PredictionCache.get_ttlMs c key now
    | set key value now => rfl
    | clear => rfl

/-- C2 (amended: `maxSize ≥ 1`): for every `PredictionCache` constructed
with `(maxSize, ttl)` where `maxSize ≥ 1` and every sequence of
get/set/clear operations, `size() ≤ maxSize` holds after every operation;
any value returned by `get(key)` comes from an entry whose age
`now - insertedAt` is at most `ttl`; and a `get` on an entry older than
`ttl` deletes that entry and returns a miss. -/
theorem predictionCache_invariants {α : Type} (maxSize ttlMs : Nat)
    (hmax : 1 ≤ maxSize) (ops : List (CacheOp α)) (key : String) (now : Nat) :
    (runOps (PredictionCache.make α maxSize ttlMs) ops).size ≤ maxSize ∧
    (∀ v, ((runOps (PredictionCache.make α maxSize ttlMs) ops).get key now).1 = some v →
      ∃ e : CacheEntry α,
        jsGet (runOps (PredictionCache.make α maxSize ttlMs) ops).cache key = some e ∧
        e.value = v ∧ now - e.timestamp ≤ ttlMs) ∧
    (∀ e : CacheEntry α,
      jsGet (runOps (PredictionCache.make α maxSize ttlMs) ops).cache key = some e →
      ttlMs < now - e.timestamp →
      ((runOps (PredictionCache.make α maxSize ttlMs) ops).get key now).1 = none ∧
      jsGet (((runOps (PredictionCache.make α maxSize ttlMs) ops).get key now).2).cache
        key = none) := by
  refine ⟨PredictionCache.size_runOps_le maxSize ttlMs hmax ops, ?_, ?_⟩
  · intro v h
    obtain ⟨e, he1, he2, he3⟩ := PredictionCache.get_some_age _ key now v h
    exact ⟨e, he1, he2, by
      rw [PredictionCache.ttlMs_runOps maxSize ttlMs ops] at he3
      exact he3⟩
  · intro e hg ht
    exact PredictionCache.get_expired _ key now e
      (PredictionCache.nodupKeys_runOps maxSize ttlMs ops) hg
      (by rw [PredictionCache.ttlMs_runOps maxSize ttlMs ops]; exact ht)

/-- C2 witness: a concrete run with `maxSize = 1`. -/
theorem predictionCache_invariants_witness :
    (runOps (PredictionCache.make Nat 1 10) [CacheOp.set "a" 7 0]).size ≤ 1 :=
  (predictionCache_invariants 1 10 (by decide) [CacheOp.set "a" 7 0] "a" 5).1

/-- C2 counterexample: with `maxSize = 0`, a single `set` still inserts
(the eviction loop finds no first key in an empty map), so
`size() ≤ maxSize` fails after that operation. -/
theorem predictionCache_maxSize_zero_counterexample :
    ¬ ((runOps (PredictionCache.make Nat 0 100) [CacheOp.set "a" 1 0]).size ≤ 0) := by
  decide

/-- C3 (amended): `set` on a present key overwrites the value and
timestamp but does not refresh the key's recency — its position in the
eviction order is unchanged; `set` on an absent key at capacity evicts
exactly the entry at the front of the order, i.e. the entry least
recently refreshed by `get` or inserted by `set` on an absent key
(overwriting via `set` does not refresh that order). -/
theorem predictionCache_set_recency {α : Type} (c : PredictionCache α)
    (key : String) (value : α) (now : Nat) :
    ((jsGet c.cache key).isSome = true →
      ((c.set key value now).cache.map Prod.fst = c.cache.map Prod.fst ∧
       jsGet (c.set key value now).cache key = some ⟨value, now⟩)) ∧
    ((jsGet c.cache key).isSome = false → c.cache.length = c.maxSize →
      1 ≤ c.maxSize →
      ((c.set key value now).cache.map Prod.fst =
        (c.cache.map Prod.fst).tail ++ [key] ∧
       jsGet (c.set key value now).cache key = some ⟨value, now⟩)) := by
  constructor
  · intro hpres
    simp only [PredictionCache.set]
    have hb : (decide (c.maxSize ≤ c.cache.length) && !(jsGet c.cache key).isSome)
        = false := by simp [hpres]
    rw [hb]
    simp only [Bool.false_eq_true, if_neg (fun hf => hf)]
    constructor
    · rw [map_fst_jsSet, if_pos ((jsGet_isSome_iff c.cache key).1 hpres)]
    · rw [jsGet_jsSet, if_pos rfl]
  · intro habs hfull hmax
    simp only [PredictionCache.set]
    have hb : (decide (c.maxSize ≤ c.cache.length) && !(jsGet c.cache key).isSome)
        = true := by simp [habs, hfull.ge]
    rw [hb, if_pos rfl]
    match hc : c.cache with
    | [] =>
      rw [hc] at hfull
      simp at hfull
      omega
    | (firstKey, e₀) :: rest =>
      dsimp only
      have hdel : jsDelete ((firstKey, e₀) :: rest) firstKey = rest := by
        simp [jsDelete]
      rw [hdel]
      have habs' : key ∉ rest.map Prod.fst := by
        rw [hc] at habs
        have := (jsGet_eq_none_iff ((firstKey, e₀) :: rest) key).1
          (Option.not_isSome_iff_eq_none.1 (by simp [habs]))
        simp only [List.map_cons, List.mem_cons] at this
        exact fun hm => this (Or.inr hm)
      constructor
      · rw [map_fst_jsSet, if_neg habs']
        simp
      · rw [jsGet_jsSet, if_pos rfl]

/-- C3 witness: both branches at concrete inputs. -/
theorem predictionCache_set_recency_witness :
    ((((PredictionCache.make Nat 2 100).set "a" 1 10).set "a" 5 20).cache.map
        Prod.fst =
      (((PredictionCache.make Nat 2 100).set "a" 1 10).cache.map Prod.fst) ∧
     jsGet (((PredictionCache.make Nat 2 100).set "a" 1 10).set "a" 5 20).cache "a"
       = some ⟨5, 20⟩) :=
  (predictionCache_set_recency ((PredictionCache.make Nat 2 100).set "a" 1 10)
    "a" 5 20).1 (by decide)

/-- C3 counterexample: `set a@10; set b@11; get a@12; set b@13; set c@14`
on a cache of capacity 2.  Under the claim, the overwrite of `b` at t=13
marks `b` most-recently-used, so inserting `c` must evict `a`.  The code
evicts `b`: overwriting `set` does not refresh recency. -/
theorem predictionCache_set_recency_counterexample :
    (jsGet ((((((PredictionCache.make Nat 2 100).set "a" 1 10).set "b" 2 11).get
        "a" 12).2.set "b" 9 13).set "c" 4 14).cache "b" = none) ∧
    (jsGet ((((((PredictionCache.make Nat 2 100).set "a" 1 10).set "b" 2 11).get
        "a" 12).2.set "b" 9 13).set "c" 4 14).cache "a").isSome = true ∧
    (jsGet ((((((PredictionCache.make Nat 2 100).set "a" 1 10).set "b" 2 11).get
        "a" 12).2.set "b" 9 13).set "c" 4 14).cache "c").isSome = true := by
  decide

theorem PredictionCache.get_miss_sublist {α : Type} (c : PredictionCache α)
    (key : String) (now : Nat) (hmiss : (c.get key now).1 = none) :
    (((c.get key now).2).cache).Sublist c.cache := by
  unfold PredictionCache.get at hmiss ⊢
  cases hg : jsGet c.cache key with
  | none => simp
  | some entry =>
    rw [hg] at hmiss
    dsimp only at hmiss ⊢
    by_cases ht : c.ttlMs < now - entry.timestamp
    · rw [if_pos ht]
      exact jsDelete_sublist c.cache key
    · rw [if_neg ht] at hmiss
      simp at hmiss

theorem fetchFeature_fail {α : Type} (c : PredictionCache α) (key : String)
    (now : Nat) (hmiss : (c.get key now).1 = none) :
    (fetchFeature c key now none).1 = none ∧
    ((fetchFeature c key now none).2).cache.Sublist c.cache := by
  have hpair : c.get key now = (none, (c.get key now).2) := by
    rw [← hmiss]
  unfold fetchFeature fetchPhase1
  rw [hpair]
  exact ⟨rfl, PredictionCache.get_miss_sublist c key now hmiss⟩

/-- C4 (amended): on every input on which the backend call fails (non-2xx
response or transport error), each fetch function (`fetchEntropy`,
`fetchGhost`, `fetchAutopanic`, `fetchSaliency`) returns the no-data value
(`null`) rather than raising, and nothing is added to the cache by the
failed call — the cache keeps a subset of its entries, the only possible
change being the removal of an expired entry by the cache lookup itself. -/
theorem fetch_backendFailure_returns_null {α : Type} (c : PredictionCache α)
    (code uri : String) (cursorLine : Int) (cursorChar : Nat) (now : Nat) :
    ((c.get (makeCacheKey "entropy"
        ( buildPrefix (code.splitOn "\n") cursorLine cursorChar)) now).1 = none →
      (fetchEntropy c code uri cursorLine cursorChar now none).1 = none ∧
      ((fetchEntropy c code uri cursorLine cursorChar now none).2).cache.Sublist
        c.cache) ∧
    ((c.get (makeCacheKey "ghost"
        ( buildPrefix (code.splitOn "\n") cursorLine cursorChar)) now).1 = none →
      (fetchGhost c code uri cursorLine cursorChar now none).1 = none ∧
      ((fetchGhost c code uri cursorLine cursorChar now none).2).cache.Sublist
        c.cache) ∧
    ((c.get (makeCacheKey "autopanic"
        ( buildPrefix (code.splitOn "\n") cursorLine cursorChar)) now).1 = none →
      (fetchAutopanic c code uri cursorLine cursorChar now none).1 = none ∧
      ((fetchAutopanic c code uri cursorLine cursorChar now none).2).cache.Sublist
        c.cache) ∧
    ((c.get (makeCacheKey "saliency"
        (uri ++ ":" ++ toString cursorLine ++ ":" ++ toString cursorChar)) now).1
        = none →
      (fetchSaliency c code uri cursorLine cursorChar now none).1 = none ∧
      ((fetchSaliency c code uri cursorLine cursorChar now none).2).cache.Sublist
        c.cache) := by
  refine ⟨fun h => ?_, fun h => ?_, fun h => ?_, fun h => ?_⟩
  · simpa only [fetchEntropy] using fetchFeature_fail c _ now h
  · simpa only [fetchGhost] using fetchFeature_fail c _ now h
  · simpa only [fetchAutopanic] using fetchFeature_fail c _ now h
  · simpa only [fetchSaliency] using fetchFeature_fail c _ now h

/-- C4 witness: a failing backend call on an empty entropy cache returns
no data. -/
theorem fetch_backendFailure_returns_null_witness :
    (fetchEntropy (PredictionCache.make Nat 50 1500) "x" "u" 1 1 5 none).1 = none ∧
    ((fetchEntropy (PredictionCache.make Nat 50 1500) "x" "u" 1 1 5 none).2).cache.Sublist
      (PredictionCache.make Nat 50 1500).cache :=
  (fetch_backendFailure_returns_null (PredictionCache.make Nat 50 1500)
    "x" "u" 1 1 5).1 rfl

/-- C4 counterexample: the cache state is not always unchanged by a failed
call — when the looked-up entry has expired, the lookup inside the fetch
deletes it, so the cache differs even though the backend call failed. -/
theorem fetch_expired_entry_changes {α : Type} (k : String) (v : α) :
    (fetchFeature ((PredictionCache.make α 50 1500).set k v 0) k 2000 none).2 ≠
      (PredictionCache.make α 50 1500).set k v 0 := by
  have hc0 : ((PredictionCache.make α 50 1500).set k v 0).cache = [(k, ⟨v, 0⟩)] := by
    simp [PredictionCache.set, PredictionCache.make, jsSet]
  have h1 : (fetchFeature ((PredictionCache.make α 50 1500).set k v 0) k
      2000 none).2.cache = [] := by
    unfold fetchFeature fetchPhase1 fetchPhase2 PredictionCache.get
    rw [hc0]
    simp [jsGet, jsDelete, PredictionCache.set, PredictionCache.make]
  intro he
  have hcache := congrArg PredictionCache.cache he
  rw [h1, hc0] at hcache
  simp at hcache

/-- C4 counterexample: the cache state is not always unchanged by a failed
call — when the looked-up entry has expired, the lookup inside the fetch
deletes it, so the cache differs even though the backend call failed. -/
theorem fetch_backendFailure_cache_changed_counterexample :
    (fetchEntropy
        ((PredictionCache.make Nat 50 1500).set
          (makeCacheKey "entropy" ( buildPrefix ("x".splitOn "\n") 1 1)) 7 0)
        "x" "u" 1 1 2000 none).2 ≠
      (PredictionCache.make Nat 50 1500).set
        (makeCacheKey "entropy" ( buildPrefix ("x".splitOn "\n") 1 1)) 7 0 :=
  fetch_expired_entry_changes
    (makeCacheKey "entropy" ( buildPrefix ("x".splitOn "\n") 1 1)) 7

/-- C9 (amended): two concurrent lookups for the same uncached key issued
before either resolves each miss the cache and each issue a backend call —
two calls in total; the client performs no in-flight deduplication. -/
theorem concurrentLookups_two_backend_calls {α : Type} (c : PredictionCache α)
    (key : String) (now₁ now₂ : Nat) (habs : jsGet c.cache key = none) :
    backendCallsInterleaved c key now₁ now₂ = 2 := by
  unfold backendCallsInterleaved fetchPhase1
  unfold PredictionCache.get
  rw [habs]
  dsimp only
  rw [habs]
  simp

/-- C9 witness: the interleaved double lookup on an empty cache. -/
theorem concurrentLookups_two_backend_calls_witness :
    backendCallsInterleaved (PredictionCache.make Nat 50 1500) "k" 0 0 = 2 :=
  concurrentLookups_two_backend_calls (PredictionCache.make Nat 50 1500) "k" 0 0 rfl

/-- C9 counterexample: the claimed single backend call is false — the
interleaved run issues two calls, not one. -/
theorem concurrentLookups_one_call_counterexample :
    ¬ (backendCallsInterleaved (PredictionCache.make Nat 50 1500) "k" 0 0 = 1) := by
  decide

/-- C8: for every list of saliency tokens returned by the backend, the
tokens retained for display are exactly those whose KL divergence is at
least the minimum-KL threshold (`>= KL_THRESHOLD` in the source), ordered
by KL divergence descending, and capped at `MAX_DISPLAY_TOKENS`: every
retained token meets the threshold, the retained list is sorted by KL
descending, at most `MAX_DISPLAY_TOKENS` are retained, and whenever at
most `MAX_DISPLAY_TOKENS` tokens meet the threshold the retained list is
a permutation of exactly the qualifying tokens. -/
theorem salientTokens_spec (ts : List SaliencyToken) :
    (∀ t ∈ salientTokens ts, KL_THRESHOLD ≤ t.klDivergence) ∧
    (salientTokens ts).Pairwise
      (fun a b => b.klDivergence ≤ a.klDivergence) ∧
    (salientTokens ts).length ≤ MAX_DISPLAY_TOKENS ∧
    ((ts.filter fun t => KL_THRESHOLD ≤ t.klDivergence).length ≤ MAX_DISPLAY_TOKENS →
      (salientTokens ts).Perm (ts.filter fun t => KL_THRESHOLD ≤ t.klDivergence)) := by
  have htrans : ∀ (a b c : SaliencyToken),
      (fun a b => decide (b.klDivergence ≤ a.klDivergence)) a b →
      (fun a b => decide (b.klDivergence ≤ a.klDivergence)) b c →
      (fun a b => decide (b.klDivergence ≤ a.klDivergence)) a c := by
    intro a b c hab hbc
    simp only [decide_eq_true_eq] at hab hbc ⊢
    exact le_trans hbc hab
  have htotal : ∀ (a b : SaliencyToken),
      ((fun a b => decide (b.klDivergence ≤ a.klDivergence)) a b ||
       (fun a b => decide (b.klDivergence ≤ a.klDivergence)) b a) := by
    intro a b
    simpa using le_total b.klDivergence a.klDivergence
  have hperm := List.mergeSort_perm
    (ts.filter fun t => KL_THRESHOLD ≤ t.klDivergence)
    (fun a b => decide (b.klDivergence ≤ a.klDivergence))
  refine ⟨?_, ?_, ?_, ?_⟩
  · intro t ht
    have h1 : t ∈ (ts.filter fun t => KL_THRESHOLD ≤ t.klDivergence).mergeSort
        (fun a b => decide (b.klDivergence ≤ a.klDivergence)) :=
      (List.take_sublist _ _).subset ht
    have h2 := hperm.subset h1
    exact of_decide_eq_true (List.mem_filter.1 h2).2
  · have hsorted := List.sorted_mergeSort
      htrans htotal (ts.filter fun t => KL_THRESHOLD ≤ t.klDivergence)
    exact ((hsorted.sublist (List.take_sublist _ _)).imp
      (fun h => of_decide_eq_true h))
  · unfold salientTokens
    exact List.length_take_le _ _
  · intro hlen
    have hlen' : ((ts.filter fun t => KL_THRESHOLD ≤ t.klDivergence).mergeSort
        (fun a b => decide (b.klDivergence ≤ a.klDivergence))).length ≤
        MAX_DISPLAY_TOKENS := by
      rw [hperm.length_eq]
      exact hlen
    unfold salientTokens
    rw [List.take_of_length_le hlen']
    exact hperm

/-- C8 witness: three tokens with KL 0.01, 0.06, 0.2 — the two above the
threshold are retained. -/
theorem salientTokens_spec_witness :
    (salientTokens [⟨1, 1, 1/100, "a"⟩, ⟨1, 2, 6/100, "b"⟩, ⟨1, 3, 2/10, "c"⟩]).Perm
      (([⟨1, 1, 1/100, "a"⟩, ⟨1, 2, 6/100, "b"⟩, ⟨1, 3, 2/10, "c"⟩] :
        List SaliencyToken).filter fun t => KL_THRESHOLD ≤ t.klDivergence) :=
  (salientTokens_spec
    [⟨1, 1, 1/100, "a"⟩, ⟨1, 2, 6/100, "b"⟩, ⟨1, 3, 2/10, "c"⟩]).2.2.2 (by
      simp only [List.filter_cons, List.filter_nil, KL_THRESHOLD, MAX_DISPLAY_TOKENS]
      norm_num)

/-! ### Lemmas about the probability transform -/

theorem list_sum_map_div (l : List ℝ) (c : ℝ) :
    (l.map fun x => x / c).sum = l.sum / c := by
  induction l with
  | nil => simp
  | cons x xs ih => simp [ih, add_div]

theorem expWeights_snd_pos (l : List TokenLogprob) (e : String × ℝ)
    (he : e ∈ expWeights l) : 0 < e.2 := by
  unfold expWeights at he
  obtain ⟨lp, _, rfl⟩ := List.mem_map.1 he
  exact Real.exp_pos _

theorem sumExp_pos (l : List TokenLogprob) (hne : l ≠ []) : 0 < sumExp l := by
  unfold sumExp
  match l, hne with
  | lp :: rest, _ =>
    have hmem : (Real.exp (lp.logprob - maxLogprob (lp :: rest))) ∈
        ((expWeights (lp :: rest)).map Prod.snd) := by
      simp [expWeights]
    have hnonneg : ∀ x ∈ (expWeights (lp :: rest)).map Prod.snd, 0 ≤ x := by
      intro x hx
      obtain ⟨e, he, rfl⟩ := List.mem_map.1 hx
      exact le_of_lt (expWeights_snd_pos _ e he)
    calc (0 : ℝ) < Real.exp (lp.logprob - maxLogprob (lp :: rest)) := Real.exp_pos _
      _ ≤ ((expWeights (lp :: rest)).map Prod.snd).sum :=
          List.single_le_sum hnonneg _ hmem

theorem map_fst_expWeights (l : List TokenLogprob) :
    (expWeights l).map Prod.fst = l.map TokenLogprob.token := by
  simp [expWeights, Function.comp]

theorem logprobsToProbs_of_nodup (l : List TokenLogprob)
    (hnd : (l.map TokenLogprob.token).Nodup) :
    logprobsToProbs l =
      (expWeights l).map fun e => (e.1, e.2 / sumExp l) := by
  match l with
  | [] => simp [logprobsToProbs, expWeights]
  | lp :: rest =>
    unfold logprobsToProbs
    have hkeys : ((expWeights (lp :: rest)).map Prod.fst).Nodup := by
      rw [map_fst_expWeights]
      exact hnd
    exact foldl_jsSet_of_nodup Prod.fst (fun e => e.2 / sumExp (lp :: rest))
      (expWeights (lp :: rest)) hkeys

theorem nodupKeys_logprobsToProbs (l : List TokenLogprob) :
    ((logprobsToProbs l).map Prod.fst).Nodup := by
  match l with
  | [] => simp [logprobsToProbs]
  | lp :: rest =>
    unfold logprobsToProbs
    exact (map_fst_foldl_jsSet Prod.fst
      (fun e => e.2 / sumExp (lp :: rest)) (expWeights (lp :: rest)) []
      (by simp)).1

theorem mem_keys_logprobsToProbs (l : List TokenLogprob) (t : String) :
    t ∈ (logprobsToProbs l).map Prod.fst ↔ t ∈ l.map TokenLogprob.token := by
  match l with
  | [] => simp [logprobsToProbs]
  | lp :: rest =>
    unfold logprobsToProbs
    have h := (map_fst_foldl_jsSet Prod.fst
      (fun e => e.2 / sumExp (lp :: rest)) (expWeights (lp :: rest)) []
      (by simp)).2 t
    rw [h, map_fst_expWeights]
    simp

theorem jsGet_logprobsToProbs (l : List TokenLogprob) (t : String) :
    jsGet (logprobsToProbs l) t =
      (l.reverse.find? (fun lp => lp.token == t)).map
        (fun lp => Real.exp (lp.logprob - maxLogprob l) / sumExp l) := by
  match l with
  | [] => simp [logprobsToProbs, jsGet]
  | lp :: rest =>
    unfold logprobsToProbs
    rw [jsGet_foldl_jsSet Prod.fst (fun e => e.2 / sumExp (lp :: rest))
      (expWeights (lp :: rest)) [] t]
    have hfind : (expWeights (lp :: rest)).reverse.find? (fun e => e.1 == t) =
        ((lp :: rest).reverse.find? (fun lp => lp.token == t)).map
          (fun lp' => (lp'.token,
            Real.exp (lp'.logprob - maxLogprob (lp :: rest)))) := by
      unfold expWeights
      rw [← List.map_reverse, List.find?_map]
      rfl
    rw [hfind]
    cases hf : (lp :: rest).reverse.find? (fun lp => lp.token == t) with
    | none => simp [jsGet]
    | some lp' => simp

theorem dup_example_probs :
    logprobsToProbs [⟨"a", 0⟩, ⟨"a", 0⟩] = [("a", 1/2)] := by
  have hm : maxLogprob [⟨"a", 0⟩, ⟨"a", 0⟩] = 0 := by
    simp [maxLogprob]
  have he : expWeights [⟨"a", 0⟩, ⟨"a", 0⟩] = [("a", 1), ("a", 1)] := by
    simp [expWeights, hm, Real.exp_zero]
  have hs : sumExp [⟨"a", 0⟩, ⟨"a", 0⟩] = 2 := by
    rw [sumExp, he]
    norm_num
  unfold logprobsToProbs
  rw [he, hs]
  simp [jsSet]

/-- C10: with duplicate tokens in the input, `logprobsToProbs` keeps
exactly one map entry per distinct token — the keys are duplicate-free and
are exactly the input tokens — holding the normalized weight of the last
occurrence only; consequently with duplicates the output values can sum to
strictly less than 1 (e.g. two copies of the same token sum to 1/2). -/
theorem logprobsToProbs_duplicates_spec (l : List TokenLogprob) :
    ((logprobsToProbs l).map Prod.fst).Nodup ∧
    (∀ t, t ∈ (logprobsToProbs l).map Prod.fst ↔ t ∈ l.map TokenLogprob.token) ∧
    (∀ t, jsGet (logprobsToProbs l) t =
      (l.reverse.find? (fun lp => lp.token == t)).map
        (fun lp => Real.exp (lp.logprob - maxLogprob l) / sumExp l)) ∧
    ((logprobsToProbs [⟨"a", 0⟩, ⟨"a", 0⟩]).map Prod.snd).sum < 1 := by
  refine ⟨nodupKeys_logprobsToProbs l, mem_keys_logprobsToProbs l,
    jsGet_logprobsToProbs l, ?_⟩
  rw [dup_example_probs]
  norm_num

/-- C1 (amended: tokens pairwise distinct): for every non-empty list of
`TokenLogprob` inputs whose tokens are pairwise distinct,
`logprobsToProbs` returns a distribution whose probabilities sum to 1
(exactly, in the real-number model, hence within tolerance 1e-9), with
each probability in `[0,1]`, and the relative ordering of the output
probabilities matches the relative ordering of the input logprobs; for
the empty list it returns the empty distribution rather than an error. -/
theorem logprobsToProbs_spec (l : List TokenLogprob) :
    (logprobsToProbs ([] : List TokenLogprob) = []) ∧
    (l ≠ [] → (l.map TokenLogprob.token).Nodup →
      (((logprobsToProbs l).map Prod.snd).sum = 1 ∧
       (∀ q ∈ (logprobsToProbs l).map Prod.snd, 0 ≤ q ∧ q ≤ 1) ∧
       (∀ a ∈ l, ∀ b ∈ l,
         ((jsGet (logprobsToProbs l) a.token).getD 0 ≤
            (jsGet (logprobsToProbs l) b.token).getD 0 ↔
          a.logprob ≤ b.logprob)))) := by
  refine ⟨rfl, fun hne hnd => ?_⟩
  have hS : 0 < sumExp l := sumExp_pos l hne
  have hrepr := logprobsToProbs_of_nodup l hnd
  have hvals : (logprobsToProbs l).map Prod.snd =
      ((expWeights l).map Prod.snd).map (fun x => x / sumExp l) := by
    rw [hrepr, List.map_map, List.map_map]
    rfl
  refine ⟨?_, ?_, ?_⟩
  · rw [hvals, list_sum_map_div]
    exact div_self (ne_of_gt hS)
  · intro q hq
    rw [hvals] at hq
    obtain ⟨x, hx, rfl⟩ := List.mem_map.1 hq
    obtain ⟨e, he, rfl⟩ := List.mem_map.1 hx
    have hx0 : 0 < e.2 := expWeights_snd_pos l e he
    have hxS : e.2 ≤ sumExp l := by
      unfold sumExp
      refine List.single_le_sum (fun x hx => ?_) _ (List.mem_map_of_mem Prod.snd he)
      obtain ⟨e', he', rfl⟩ := List.mem_map.1 hx
      exact le_of_lt (expWeights_snd_pos l e' he')
    exact ⟨le_of_lt (div_pos hx0 hS), (div_le_one hS).2 hxS⟩
  · intro a ha b hb
    have hget : ∀ x ∈ l, (jsGet (logprobsToProbs l) x.token).getD 0 =
        Real.exp (x.logprob - maxLogprob l) / sumExp l := by
      intro x hx
      have hmem : (x.token, Real.exp (x.logprob - maxLogprob l) / sumExp l) ∈
          logprobsToProbs l := by
        rw [hrepr]
        exact List.mem_map_of_mem _ (List.mem_map_of_mem _ hx)
      rw [jsGet_of_mem_nodup _ _ _ (nodupKeys_logprobsToProbs l) hmem]
      rfl
    rw [hget a ha, hget b hb, div_le_div_iff_of_pos_right hS, Real.exp_le_exp,
      sub_le_sub_iff_right]

/-- C1 witness: two distinct tokens normalize to probabilities summing
to 1. -/
theorem logprobsToProbs_spec_witness :
    ((logprobsToProbs [⟨"a", -1⟩, ⟨"b", -2⟩]).map Prod.snd).sum = 1 :=
  ((logprobsToProbs_spec [⟨"a", -1⟩, ⟨"b", -2⟩]).2 (by simp)
    (by simp [TokenLogprob.token])).1

/-- C1 counterexample: on the duplicate-token input
`[("a", 0), ("a", 0)]` the returned probabilities sum to 1/2, not within
1e-9 of 1 — the sum-to-1 guarantee fails for non-empty lists with
repeated tokens. -/
theorem logprobsToProbs_duplicate_counterexample :
    ¬ (|((logprobsToProbs [⟨"a", 0⟩, ⟨"a", 0⟩]).map Prod.snd).sum - 1| ≤ 1e-9) := by
  rw [dup_example_probs]
  norm_num
  rw [abs_of_pos (by norm_num : (0:ℝ) < 1/2)]
  norm_num

/-- C7: the KL divergence of any distribution against itself is exactly 0
(hence certainly within tolerance 1e-6), provided the map is well-formed
(duplicate-free keys, as every JavaScript `Map` is). -/
theorem calculateKL_self (p : JsMap ℝ) (hnd : (p.map Prod.fst).Nodup) :
    calculateKL p p = 0 ∧ |calculateKL p p| ≤ 1e-6 := by
  have h0 : calculateKL p p = 0 := by
    unfold calculateKL
    refine List.sum_eq_zero ?_
    intro x hx
    obtain ⟨e, he, rfl⟩ := List.mem_map.1 hx
    obtain ⟨k, v⟩ := e
    by_cases hpos : 0 < v
    · rw [if_pos hpos]
      have hget : jsGet p k = some v := jsGet_of_mem_nodup p k v hnd he
      have hne : v ≠ 0 := ne_of_gt hpos
      have hq : jsGetNumOr p k 1e-10 = v := by
        unfold jsGetNumOr
        rw [hget]
        simp [hne]
      rw [hq, div_self hne, Real.log_one, mul_zero]
    · rw [if_neg hpos]
  exact ⟨h0, by rw [h0]; norm_num⟩

/-- C7 witness: the distribution `{a: 0.9, b: 0.1}` against itself. -/
theorem calculateKL_self_witness :
    calculateKL [("a", (9:ℝ)/10), ("b", (1:ℝ)/10)]
      [("a", (9:ℝ)/10), ("b", (1:ℝ)/10)] = 0 :=
  (calculateKL_self [("a", (9:ℝ)/10), ("b", (1:ℝ)/10)] (by simp)).1

/-! ### Lemmas about `calculateMargin` -/

theorem sortByLogprobDesc_perm (l : List TokenLogprob) :
    (sortByLogprobDesc l).Perm l :=
  List.mergeSort_perm l _

theorem sortByLogprobDesc_sorted (l : List TokenLogprob) :
    (sortByLogprobDesc l).Pairwise (fun a b => b.logprob ≤ a.logprob) := by
  have htr : ∀ (a b c : TokenLogprob),
      (fun a b : TokenLogprob => decide (b.logprob ≤ a.logprob)) a b →
      (fun a b : TokenLogprob => decide (b.logprob ≤ a.logprob)) b c →
      (fun a b : TokenLogprob => decide (b.logprob ≤ a.logprob)) a c := by
    intro a b c hab hbc
    simp only [decide_eq_true_eq] at hab hbc ⊢
    exact le_trans hbc hab
  have hto : ∀ (a b : TokenLogprob),
      ((fun a b : TokenLogprob => decide (b.logprob ≤ a.logprob)) a b ||
       (fun a b : TokenLogprob => decide (b.logprob ≤ a.logprob)) b a) := by
    intro a b
    simpa using le_total b.logprob a.logprob
  have h := List.sorted_mergeSort htr hto l
  exact h.imp (fun hd => of_decide_eq_true hd)

theorem logprobsToProbs_pair_ne (a b : TokenLogprob) (hab : a.token ≠ b.token) :
    logprobsToProbs [a, b] =
      [(a.token, Real.exp (a.logprob - maxLogprob [a, b]) / sumExp [a, b]),
       (b.token, Real.exp (b.logprob - maxLogprob [a, b]) / sumExp [a, b])] := by
  rw [logprobsToProbs_of_nodup [a, b] (by simp [hab])]
  simp [expWeights]

theorem logprobsToProbs_pair_eq (a b : TokenLogprob) (hab : a.token = b.token) :
    logprobsToProbs [a, b] =
      [(b.token, Real.exp (b.logprob - maxLogprob [a, b]) / sumExp [a, b])] := by
  unfold logprobsToProbs
  simp only [expWeights, List.map_cons, List.map_nil, List.foldl_cons,
    List.foldl_nil]
  simp [jsSet, hab]

theorem sumExp_pair (a b : TokenLogprob) :
    sumExp [a, b] = Real.exp (a.logprob - maxLogprob [a, b]) +
      Real.exp (b.logprob - maxLogprob [a, b]) := by
  simp [sumExp, expWeights]

/-- C6: `calculateMargin` returns exactly 1.0 for every input with fewer
than 2 entries; with at least 2 entries it sorts descending by logprob,
renormalizes only the top two entries via the probability transform, and
returns `p1 - p2`, a value in `[0, 1]`. -/
theorem calculateMargin_spec (l : List TokenLogprob) :
    (l.length < 2 → calculateMargin l = 1) ∧
    (2 ≤ l.length →
      ∃ a b rest, sortByLogprobDesc l = a :: b :: rest ∧
        b.logprob ≤ a.logprob ∧
        calculateMargin l =
          jsGetNumOr (logprobsToProbs [a, b]) a.token 0 -
          jsGetNumOr (logprobsToProbs [a, b]) b.token 0 ∧
        0 ≤ calculateMargin l ∧ calculateMargin l ≤ 1) := by
  constructor
  · intro hlen
    unfold calculateMargin
    rw [if_pos hlen]
    norm_num
  · intro hlen
    have hnlt : ¬ l.length < 2 := by omega
    have hslen : (sortByLogprobDesc l).length = l.length :=
      (sortByLogprobDesc_perm l).length_eq
    match hsort : sortByLogprobDesc l with
    | [] => rw [hsort] at hslen; simp at hslen; omega
    | [a] => rw [hsort] at hslen; simp at hslen; omega
    | a :: b :: rest =>
      have hba : b.logprob ≤ a.logprob := by
        have := sortByLogprobDesc_sorted l
        rw [hsort] at this
        exact (List.pairwise_cons.1 this).1 b (List.mem_cons_self b rest)
      have hmargin : calculateMargin l =
          jsGetNumOr (logprobsToProbs [a, b]) a.token 0 -
          jsGetNumOr (logprobsToProbs [a, b]) b.token 0 := by
        unfold calculateMargin
        rw [if_neg hnlt, hsort]
      have hbound : 0 ≤ calculateMargin l ∧ calculateMargin l ≤ 1 := by
        rw [hmargin]
        set ea := Real.exp (a.logprob - maxLogprob [a, b]) with hea
        set eb := Real.exp (b.logprob - maxLogprob [a, b]) with heb
        have hea0 : 0 < ea := Real.exp_pos _
        have heb0 : 0 < eb := Real.exp_pos _
        have hS : sumExp [a, b] = ea + eb := sumExp_pair a b
        have hS0 : 0 < sumExp [a, b] := by rw [hS]; positivity
        have hba2 : eb ≤ ea := by
          rw [hea, heb]
          exact Real.exp_le_exp.2 (by linarith)
        by_cases ht : a.token = b.token
        · rw [logprobsToProbs_pair_eq a b ht]
          have hvne : eb / sumExp [a, b] ≠ 0 := ne_of_gt (div_pos heb0 hS0)
          have hv : ∀ t, t = b.token →
              jsGetNumOr [(b.token, eb / sumExp [a, b])] t 0 =
                eb / sumExp [a, b] := by
            intro t htb
            unfold jsGetNumOr
            simp [jsGet, htb, hvne]
          rw [hv a.token ht, hv b.token rfl, sub_self]
          exact ⟨le_refl 0, by norm_num⟩
        · rw [logprobsToProbs_pair_ne a b ht]
          have hva : jsGetNumOr
              [(a.token, ea / sumExp [a, b]), (b.token, eb / sumExp [a, b])]
              a.token 0 = ea / sumExp [a, b] := by
            unfold jsGetNumOr
            simp [jsGet, ne_of_gt (div_pos hea0 hS0)]
          have hvb : jsGetNumOr
              [(a.token, ea / sumExp [a, b]), (b.token, eb / sumExp [a, b])]
              b.token 0 = eb / sumExp [a, b] := by
            unfold jsGetNumOr
            have hbt : ¬ a.token = b.token := ht
            simp [jsGet, hbt, ne_of_gt (div_pos heb0 hS0)]
          rw [hva, hvb, div_sub_div_same]
          refine ⟨div_nonneg (by linarith) (le_of_lt hS0), ?_⟩
          rw [div_le_one hS0, hS]
          linarith
      exact ⟨a, b, rest, rfl, hba, hmargin, hbound.1, hbound.2⟩

/-! ### Lemmas about `calculateEntropy` -/

theorem entropy_term_nonneg (p : ℝ) (h1 : p ≤ 1) :
    0 ≤ if 0 < p then -(p * Real.logb 2 p) else 0 := by
  by_cases hp : 0 < p
  · rw [if_pos hp]
    have hlog : Real.logb 2 p ≤ 0 :=
      Real.logb_nonpos (by norm_num) (le_of_lt hp) h1
    nlinarith
  · rw [if_neg hp]

theorem list_sum_map_neg (l : List ℝ) (f : ℝ → ℝ) :
    (l.map fun x => -(f x)).sum = -((l.map f).sum) := by
  induction l with
  | nil => simp
  | cons x xs ih => simp [ih]; ring

theorem entropy_filter_term_sum (v : List ℝ) :
    (((v.filter fun p => decide (0 < p)).map
      fun p => if 0 < p then -(p * Real.logb 2 p) else 0).sum) =
    ((v.map fun p => if 0 < p then -(p * Real.logb 2 p) else 0).sum) := by
  induction v with
  | nil => simp
  | cons x xs ih =>
    by_cases hx : 0 < x
    · rw [List.filter_cons_of_pos (by simpa using hx)]
      simp only [List.map_cons, List.sum_cons, ih]
    · rw [List.filter_cons_of_neg (by simpa using hx)]
      simp only [List.map_cons, List.sum_cons, ih, if_neg hx, zero_add]

theorem entropy_filter_pos_sum (v : List ℝ) (h0 : ∀ p ∈ v, 0 ≤ p) :
    (v.filter fun p => decide (0 < p)).sum = v.sum := by
  induction v with
  | nil => simp
  | cons x xs ih =>
    have hxs := ih fun p hp => h0 p (List.mem_cons_of_mem x hp)
    by_cases hx : 0 < x
    · rw [List.filter_cons_of_pos (by simpa using hx)]
      simp [hxs]
    · have hx0 : x = 0 :=
        le_antisymm (not_lt.1 hx) (h0 x (List.mem_cons_self x xs))
      rw [List.filter_cons_of_neg (by simpa using hx)]
      simp [hxs, hx0]

theorem list_sum_zero_of_nonneg (v : List ℝ) (h0 : ∀ p ∈ v, 0 ≤ p)
    (hsum : v.sum = 0) : ∀ p ∈ v, p = 0 := by
  induction v with
  | nil => simp
  | cons x xs ih =>
    have hx0 : 0 ≤ x := h0 x (List.mem_cons_self x xs)
    have hxs0 : 0 ≤ xs.sum :=
      List.sum_nonneg fun p hp => h0 p (List.mem_cons_of_mem x hp)
    rw [List.sum_cons] at hsum
    have hx : x = 0 := by linarith
    have hxs : xs.sum = 0 := by linarith
    intro p hp
    rcases List.mem_cons.1 hp with rfl | hp
    · exact hx
    · exact ih (fun q hq => h0 q (List.mem_cons_of_mem x hq)) hxs p hp

theorem exists_pointmass : ∀ (v : List ℝ), (∀ p ∈ v, p = 0 ∨ p = 1) →
    v.sum = 1 →
    ∃ i : Fin v.length, v.get i = 1 ∧ ∀ j : Fin v.length, j ≠ i → v.get j = 0 := by
  intro v
  induction v with
  | nil => intro _ hsum; simp at hsum
  | cons x xs ih =>
    intro h01 hsum
    rcases h01 x (List.mem_cons_self x xs) with hx | hx
    · have hxs : xs.sum = 1 := by
        rw [List.sum_cons, hx, zero_add] at hsum
        exact hsum
      obtain ⟨i, hi1, hi0⟩ :=
        ih (fun p hp => h01 p (List.mem_cons_of_mem x hp)) hxs
      refine ⟨i.succ, by simpa using hi1, ?_⟩
      intro j
      refine Fin.cases ?_ ?_ j
      · intro _
        simpa using hx
      · intro k hk
        have hki : k ≠ i := fun he => hk (by rw [he])
        simpa using hi0 k hki
    · have hxs : xs.sum = 0 := by
        rw [List.sum_cons, hx] at hsum
        linarith
      have hzero : ∀ p ∈ xs, p = 0 := by
        refine list_sum_zero_of_nonneg xs (fun p hp => ?_) hxs
        rcases h01 p (List.mem_cons_of_mem x hp) with h | h <;> simp [h]
      refine ⟨⟨0, Nat.succ_pos _⟩, by simpa using hx, ?_⟩
      intro j
      refine Fin.cases ?_ ?_ j
      · intro hj
        exact absurd rfl hj
      · intro k _
        have hmem : xs.get k ∈ xs := List.mem_iff_get.2 ⟨k, rfl⟩
        simpa using hzero (xs.get k) hmem

theorem neg_sum_mul_log_le (v : List ℝ) (hpos : ∀ p ∈ v, 0 < p)
    (hsum : v.sum = 1) :
    -((v.map fun p => p * Real.log p).sum) ≤ Real.log (v.length : ℝ) := by
  have hw : ∀ i : Fin v.length, 0 < v.get i := fun i =>
    hpos _ (List.mem_iff_get.2 ⟨i, rfl⟩)
  have hsum' : ∑ i : Fin v.length, v.get i = 1 := by
    calc ∑ i : Fin v.length, v.get i = (List.ofFn v.get).sum :=
          List.sum_ofFn.symm
      _ = v.sum := by rw [List.ofFn_get]
      _ = 1 := hsum
  have hmap : (v.map fun p => p * Real.log p).sum =
      ∑ i : Fin v.length, v.get i * Real.log (v.get i) := by
    calc (v.map fun p => p * Real.log p).sum
        = ((List.ofFn v.get).map fun p => p * Real.log p).sum := by
          rw [List.ofFn_get]
      _ = (List.ofFn fun i => v.get i * Real.log (v.get i)).sum := by
          rw [List.map_ofFn]
          rfl
      _ = ∑ i : Fin v.length, v.get i * Real.log (v.get i) := List.sum_ofFn
  have hjen := (strictConcaveOn_log_Ioi.concaveOn).le_map_sum
    (t := Finset.univ) (w := fun i : Fin v.length => v.get i)
    (p := fun i : Fin v.length => (v.get i)⁻¹)
    (fun i _ => le_of_lt (hw i)) (by simpa using hsum')
    (fun i _ => Set.mem_Ioi.2 (inv_pos.2 (hw i)))
  have hrhs : ∑ i : Fin v.length, v.get i • (v.get i)⁻¹ = (v.length : ℝ) := by
    rw [Finset.sum_congr rfl
      (fun i _ => by rw [smul_eq_mul, mul_inv_cancel₀ (ne_of_gt (hw i))])]
    simp
  have hlhs : ∑ i : Fin v.length, v.get i • Real.log (v.get i)⁻¹ =
      -(∑ i : Fin v.length, v.get i * Real.log (v.get i)) := by
    rw [← Finset.sum_neg_distrib]
    refine Finset.sum_congr rfl fun i _ => ?_
    rw [smul_eq_mul, Real.log_inv]
    ring
  rw [hlhs, hrhs] at hjen
  rw [hmap]
  exact hjen

theorem calculateEntropy_nonneg (probs : JsMap ℝ)
    (h1 : ∀ p ∈ probs.map Prod.snd, p ≤ 1) : 0 ≤ calculateEntropy probs := by
  unfold calculateEntropy
  refine List.sum_nonneg fun x hx => ?_
  obtain ⟨p, hp, rfl⟩ := List.mem_map.1 hx
  exact entropy_term_nonneg p (h1 p hp)

theorem calculateEntropy_le_logb (probs : JsMap ℝ)
    (h01 : ∀ p ∈ probs.map Prod.snd, 0 ≤ p ∧ p ≤ 1)
    (hsum : (probs.map Prod.snd).sum = 1) :
    calculateEntropy probs ≤ Real.logb 2 (probs.length : ℝ) := by
  have hlog2 : 0 < Real.log 2 := Real.log_pos (by norm_num)
  set v := probs.map Prod.snd with hv
  set w := v.filter fun p => decide (0 < p) with hwdef
  have hpos : ∀ p ∈ w, 0 < p := fun p hp =>
    of_decide_eq_true (List.mem_filter.1 hp).2
  have hwsum : w.sum = 1 := by
    rw [hwdef, entropy_filter_pos_sum v fun p hp => (h01 p hp).1]
    exact hsum
  have hne : w ≠ [] := by
    intro h
    rw [h] at hwsum
    simp at hwsum
  have hlen1 : 1 ≤ w.length := List.length_pos.2 hne
  have hH : calculateEntropy probs =
      ((w.map fun p => if 0 < p then -(p * Real.logb 2 p) else 0).sum) := by
    unfold calculateEntropy
    rw [hwdef, entropy_filter_term_sum v]
  have hTmap : (w.map fun p => if 0 < p then -(p * Real.logb 2 p) else 0) =
      w.map fun p => -(p * Real.log p) / Real.log 2 := by
    refine List.map_congr_left fun p hp => ?_
    have hp0 := hpos p hp
    rw [if_pos hp0, Real.logb, Real.log_div_log]
    rw [← Real.log_div_log]
    ring
  have hdiv : (w.map fun p => -(p * Real.log p) / Real.log 2).sum =
      ((w.map fun p => -(p * Real.log p)).sum) / Real.log 2 := by
    rw [← list_sum_map_div (w.map fun p => -(p * Real.log p)) (Real.log 2),
      List.map_map]
    rfl
  have hneg : (w.map fun p => -(p * Real.log p)).sum =
      -((w.map fun p => p * Real.log p).sum) :=
    list_sum_map_neg w _
  have hjen := neg_sum_mul_log_le w hpos hwsum
  have hlenle : (w.length : ℝ) ≤ (probs.length : ℝ) := by
    have h1 : w.length ≤ v.length := by
      rw [hwdef]
      exact List.length_filter_le _ v
    have h2 : v.length = probs.length := by
      rw [hv, List.length_map]
    exact_mod_cast h1.trans (le_of_eq h2)
  calc calculateEntropy probs
      = -((w.map fun p => p * Real.log p).sum) / Real.log 2 := by
        rw [hH, hTmap, hdiv, hneg]
    _ ≤ Real.log (w.length : ℝ) / Real.log 2 := by
        apply div_le_div_of_nonneg_right ?_ (le_of_lt hlog2)
        exact hjen
    _ = Real.logb 2 (w.length : ℝ) := Real.log_div_log
    _ ≤ Real.logb 2 (probs.length : ℝ) := by
        refine Real.logb_le_logb_of_le (by norm_num) ?_ hlenle
        exact_mod_cast hlen1

theorem calculateEntropy_eq_zero_iff (probs : JsMap ℝ)
    (h01 : ∀ p ∈ probs.map Prod.snd, 0 ≤ p ∧ p ≤ 1)
    (hsum : (probs.map Prod.snd).sum = 1) :
    calculateEntropy probs = 0 ↔
      ∃ i : Fin (probs.map Prod.snd).length,
        (probs.map Prod.snd).get i = 1 ∧
        ∀ j : Fin (probs.map Prod.snd).length, j ≠ i →
          (probs.map Prod.snd).get j = 0 := by
  set v := probs.map Prod.snd with hv
  constructor
  · intro hH
    have hterms : ∀ x ∈ v.map fun p => if 0 < p then -(p * Real.logb 2 p) else 0,
        x = 0 := by
      refine list_sum_zero_of_nonneg _ (fun x hx => ?_) hH
      obtain ⟨p, hp, rfl⟩ := List.mem_map.1 hx
      exact entropy_term_nonneg p (h01 p hp).2
    have h01' : ∀ p ∈ v, p = 0 ∨ p = 1 := by
      intro p hp
      have hterm := hterms _ (List.mem_map_of_mem _ hp)
      by_cases hp0 : 0 < p
      · rw [if_pos hp0] at hterm
        have hlogb : Real.logb 2 p = 0 := by
          rcases mul_eq_zero.1 (neg_eq_zero.1 hterm) with h | h
          · exact absurd h (ne_of_gt hp0)
          · exact h
        rcases Real.logb_eq_zero.1 hlogb with h | h | h | h | h | h
        · norm_num at h
        · norm_num at h
        · norm_num at h
        · exact absurd h (ne_of_gt hp0)
        · exact Or.inr h
        · exact absurd h (by linarith)
      · exact Or.inl (le_antisymm (not_lt.1 hp0) (h01 p hp).1)
    exact exists_pointmass v h01' hsum
  · rintro ⟨i, hi1, hi0⟩
    unfold calculateEntropy
    refine List.sum_eq_zero fun x hx => ?_
    obtain ⟨p, hp, rfl⟩ := List.mem_map.1 hx
    obtain ⟨j, hj⟩ := List.mem_iff_get.1 hp
    have h01'' : p = 0 ∨ p = 1 := by
      by_cases hji : j = i
      · exact Or.inr (by rw [← hj, hji, hi1])
      · exact Or.inl (by rw [← hj, hi0 j hji])
    rcases h01'' with rfl | rfl
    · rw [if_neg (lt_irrefl 0)]
    · rw [if_pos one_pos, Real.logb_one]
      ring

theorem calculateEntropy_uniform (probs : JsMap ℝ) (k : ℕ) (hk : 1 ≤ k)
    (hrep : probs.map Prod.snd = List.replicate k ((k : ℝ))⁻¹) :
    calculateEntropy probs = Real.logb 2 (k : ℝ) := by
  have hk0 : (0 : ℝ) < (k : ℝ) := by exact_mod_cast hk
  have hkne : (k : ℝ) ≠ 0 := ne_of_gt hk0
  have hkinv : 0 < ((k : ℝ))⁻¹ := inv_pos.2 hk0
  unfold calculateEntropy
  rw [hrep, List.map_replicate, if_pos hkinv, List.sum_replicate, nsmul_eq_mul,
    Real.logb_inv]
  field_simp

/-- C5: for every probability distribution over `n` tokens (values in
`[0,1]` summing to 1), `calculateEntropy` returns a value in
`[0, log2 n]`; it returns 0 if and only if the distribution is a point
mass (one entry with probability 1, all others 0); and on the uniform
distribution over `k` tokens it returns exactly `log2 k` (hence within
tolerance 1e-6). -/
theorem calculateEntropy_spec (probs : JsMap ℝ)
    (h01 : ∀ p ∈ probs.map Prod.snd, 0 ≤ p ∧ p ≤ 1)
    (hsum : (probs.map Prod.snd).sum = 1) :
    (0 ≤ calculateEntropy probs ∧
     calculateEntropy probs ≤ Real.logb 2 (probs.length : ℝ)) ∧
    (calculateEntropy probs = 0 ↔
      ∃ i : Fin (probs.map Prod.snd).length,
        (probs.map Prod.snd).get i = 1 ∧
        ∀ j : Fin (probs.map Prod.snd).length, j ≠ i →
          (probs.map Prod.snd).get j = 0) ∧
    (∀ k : ℕ, 1 ≤ k → probs.map Prod.snd = List.replicate k ((k : ℝ))⁻¹ →
      calculateEntropy probs = Real.logb 2 (k : ℝ)) :=
  ⟨⟨calculateEntropy_nonneg probs fun p hp => (h01 p hp).2,
    calculateEntropy_le_logb probs h01 hsum⟩,
   calculateEntropy_eq_zero_iff probs h01 hsum,
   fun k hk hrep => calculateEntropy_uniform probs k hk hrep⟩

/-- C5 witness: the point-mass distribution `{a: 1}` has entropy 0. -/
theorem calculateEntropy_spec_witness :
    calculateEntropy [("a", (1 : ℝ))] = 0 :=
  ((calculateEntropy_spec [("a", (1 : ℝ))] (by
      intro p hp
      simp at hp
      simp [hp]) (by simp)).2.1).2
    ⟨⟨0, by simp⟩, by simp, by
      intro j hj
      exfalso
      apply hj
      apply Fin.ext
      have := j.isLt
      simp at this
      simp [this]⟩

/-- C6 witness: a single candidate yields margin exactly 1.0. -/
theorem calculateMargin_spec_witness :
    calculateMargin [⟨"x", (-0.05 : ℝ)⟩] = 1 :=
  (calculateMargin_spec [⟨"x", (-0.05 : ℝ)⟩]).1 (by norm_num)
